import Mathlib

/-!
Shallow embedding of `project.py` (Health Tracker), a small program that
records daily health metrics and derives a moving average, a trailing
7-day summary, and a CSV export.

Modelling conventions:
* Python floats are modelled as exact rationals (`Rat`); the claims under
  study concern which values are selected and combined, not IEEE rounding.
* `datetime.strptime(s, "%Y-%m-%d")` is modelled by `parseDate`, following
  the regular expressions CPython uses for the directives `%Y` (exactly four
  digits), `%m` (`1[0-2]|0[1-9]|[1-9]`) and `%d` (`3[01]|[12]\d|0[1-9]|[1-9]`),
  the whole-string match requirement, and the calendar validation performed
  by the `datetime` constructor (year at least 1, day bounded by month length).
* A parsed `datetime` at midnight is represented by its proleptic Gregorian
  day number (`dayNumber`), which preserves comparisons and makes
  `timedelta(days=6)` an integer subtraction.
* Python exceptions become `Except PyErr`; `raise ValueError` is
  `PyErr.invalidInput`.
* The Python `dict` built by `moving_average` is an insertion-ordered
  association list; `dictInsert` overwrites the value of an existing key in
  place and appends a fresh key at the end, as CPython dicts do.
-/

/-- Error taxonomy of the spec: invalid input (Python ValueError) and
file-system failure (Python OSError). -/
inductive PyErr where
  | invalidInput : PyErr
  | ioFailure : PyErr
deriving DecidableEq, Repr

/-- The `Entry` dataclass of `project.py`: a date string, a metric name and a
numeric value. -/
structure Entry where
  date : String
  metric : String
  value : Rat
deriving DecidableEq, Repr, Inhabited

/-- An argument passed as the `value` parameter of `add_entry`: either an
already numeric Python object or a string to be converted by `float()`. -/
inductive PyVal where
  | num (q : Rat) : PyVal
  | str (s : String) : PyVal
deriving DecidableEq, Repr

/-- Characters Python `str.strip()` removes from both ends (the ASCII
whitespace the program can encounter). -/
def pyStripChars (cs : List Char) : List Char :=
  ((cs.dropWhile Char.isWhitespace).reverse.dropWhile Char.isWhitespace).reverse

/-- ASCII case folding of Python `str.lower()` on the identifier strings the
program uses. -/
def pyLowerChar (c : Char) : Char :=
  if 'A' ≤ c ∧ c ≤ 'Z' then Char.ofNat (c.toNat + 32) else c

/-- Metric normalization used throughout `project.py`:
`metric.strip().lower()`. -/
def normalizeMetric (m : String) : String :=
  String.mk ((pyStripChars m.toList).map pyLowerChar)

/-- Python `<=` on strings: lexicographic comparison of code points. -/
def charsLe : List Char → List Char → Bool
  | [], _ => true
  | _ :: _, [] => false
  | a :: as, b :: bs =>
    if a.toNat < b.toNat then true
    else if b.toNat < a.toNat then false
    else charsLe as bs

/-- String comparison used by `sorted(..., key=lambda e: e.date)`. -/
def strLe (a b : String) : Bool := charsLe a.toList b.toList

/-- Numeric value of a decimal digit character. -/
def digitVal (c : Char) : Nat := c.toNat - 48

/-- Natural number denoted by a list of decimal digit characters. -/
def digitsToNat (cs : List Char) : Nat :=
  cs.foldl (fun n c => 10 * n + digitVal c) 0

/-- Model of Python `float(s)` on a stripped string: an optional sign followed
by a plain decimal literal (digits, or digits with a fractional part).
Exotic float syntax (exponents, inf, nan, underscores) is outside the inputs
exercised by the program and its spec. -/
def parseDecimal (cs : List Char) : Option Rat :=
  let signed : Bool × List Char :=
    match cs with
    | '-' :: t => (true, t)
    | '+' :: t => (false, t)
    | _ => (false, cs)
  let ip := signed.2.takeWhile Char.isDigit
  let r1 := signed.2.dropWhile Char.isDigit
  let mag : Option Rat :=
    match r1 with
    | [] => if ip.isEmpty then none else some ((digitsToNat ip : Rat))
    | '.' :: r2 =>
      let fp := r2.takeWhile Char.isDigit
      let r3 := r2.dropWhile Char.isDigit
      if r3.isEmpty && !(ip.isEmpty && fp.isEmpty) then
        some ((digitsToNat ip : Rat) + (digitsToNat fp : Rat) / ((10 : Rat) ^ fp.length))
      else none
    | _ => none
  mag.map (fun q => if signed.1 then -q else q)

/-- Model of Python `float(value)` for the two argument shapes used with
`add_entry`: numbers convert to themselves, strings go through `float(str)`
(which strips surrounding whitespace first). -/
def pyFloat : PyVal → Option Rat
  | PyVal.num q => some q
  | PyVal.str s => parseDecimal (pyStripChars s.toList)

/-- A parsed calendar date. -/
structure Date where
  year : Nat
  month : Nat
  day : Nat
deriving DecidableEq, Repr

/-- Month part of `strptime` with `%m`: two digits forming 01..12 followed by
the literal separator, or a single digit 1..9 followed by the separator.
Returns the month value and the input after the separator. -/
def parseMonth : List Char → Option (Nat × List Char)
  | a :: b :: rest =>
    if a.isDigit && b.isDigit then
      let v := 10 * digitVal a + digitVal b
      match rest with
      | '-' :: rest2 => if 1 ≤ v ∧ v ≤ 12 then some (v, rest2) else none
      | _ => none
    else if a.isDigit && b == '-' then
      if 1 ≤ digitVal a then some (digitVal a, rest) else none
    else none
  | _ => none

/-- Day part of `strptime` with `%d` at the end of the string: two digits
forming 01..31, or a single digit 1..9; anything left over after the day
makes the whole parse fail (unconverted data remains). -/
def parseDay : List Char → Option Nat
  | [a, b] =>
    if a.isDigit && b.isDigit then
      let v := 10 * digitVal a + digitVal b
      if 1 ≤ v ∧ v ≤ 31 then some v else none
    else none
  | [a] => if a.isDigit && 1 ≤ digitVal a then some (digitVal a) else none
  | _ => none

/-- Gregorian leap-year rule, as `calendar.isleap` and `datetime` use it. -/
def isLeap (y : Nat) : Bool :=
  y % 4 == 0 && (y % 100 != 0 || y % 400 == 0)

/-- Length of a month in a given year. -/
def daysInMonth (y m : Nat) : Nat :=
  if m = 2 then (if isLeap y then 29 else 28)
  else if m = 4 ∨ m = 6 ∨ m = 9 ∨ m = 11 then 30
  else 31

/-- Model of `datetime.strptime(s, "%Y-%m-%d")`: four year digits, the
separator, month and day as above, then the `datetime` constructor's
range check on the day and the year. -/
def parseDate (s : String) : Option Date :=
  match s.toList with
  | c1 :: c2 :: c3 :: c4 :: '-' :: rest =>
    if c1.isDigit && c2.isDigit && c3.isDigit && c4.isDigit then
      let y := 1000 * digitVal c1 + 100 * digitVal c2 + 10 * digitVal c3 + digitVal c4
      match parseMonth rest with
      | some md =>
        match parseDay md.2 with
        | some d =>
          if 1 ≤ y ∧ d ≤ daysInMonth y md.1 then some ⟨y, md.1, d⟩ else none
        | none => none
      | none => none
    else none
  | _ => none

/-- Days in the months strictly before month `m` of year `y`. -/
def daysBeforeMonth (y m : Nat) : Nat :=
  ((List.range' 1 (m - 1)).map (daysInMonth y)).sum

/-- Proleptic Gregorian day number of a date (Rata Die): the value
`datetime.date.toordinal` computes.  It is strictly monotone in calendar
order, so `datetime` comparison and `timedelta` day arithmetic become
integer comparison and subtraction on it. -/
def dayNumber (d : Date) : Nat :=
  365 * (d.year - 1) + (d.year - 1) / 4 - (d.year - 1) / 100 + (d.year - 1) / 400
    + daysBeforeMonth d.year d.month + d.day

/-- Shallow embedding of `add_entry(entries, date, metric, value)`.
The Python function mutates `entries`; here the first component of the
result is the collection after the call and the second the returned entry
or the raised error.  Validation happens before the append, so on failure
the collection comes back untouched. -/
def add_entry (entries : List Entry) (date : String) (metric : String)
    (value : PyVal) : List Entry × Except PyErr Entry :=
  match parseDate date with
  | none => (entries, Except.error PyErr.invalidInput)
  | some _ =>
    match pyFloat value with
    | none => (entries, Except.error PyErr.invalidInput)
    | some vf =>
      let entry : Entry := ⟨date, normalizeMetric metric, vf⟩
      (entries ++ [entry], Except.ok entry)

/-- Insertion into a Python `dict` keyed by strings: an existing key keeps
its position and gets the new value, a fresh key is appended at the end. -/
def dictInsert (d : List (String × Rat)) (k : String) (v : Rat) :
    List (String × Rat) :=
  if d.any (fun p => p.1 == k) then
    d.map (fun p => cond (p.1 == k) (k, v) p)
  else d ++ [(k, v)]

/-- Comparison passed to the sort in `moving_average`:
`sorted(..., key=lambda e: e.date)` compares the date strings. -/
def dateLe (a b : Entry) : Bool := strLe a.date b.date

/-- Shallow embedding of `moving_average(entries, metric, window)`.  The
Python `sorted` is a stable sort by the date string, modelled by
`List.mergeSort`; the result dict maps each eligible date to the mean of the
`window` values ending at it. -/
def moving_average (entries : List Entry) (metric : String) (window : Int) :
    Except PyErr (List (String × Rat)) :=
  if window < 1 then Except.error PyErr.invalidInput
  else
    let m := normalizeMetric metric
    let vals := (entries.filter (fun e => e.metric == m)).mergeSort dateLe
    if vals.isEmpty then Except.ok []
    else
      let numbers := vals.map (fun e => e.value)
      let dates := vals.map (fun e => e.date)
      Except.ok ((List.range numbers.length).foldl
        (fun (results : List (String × Rat)) (i : Nat) =>
          if window ≤ (i : Int) + 1 then
            let windowVals := (numbers.take (i + 1)).drop (i + 1 - window.toNat)
            dictInsert results (dates.getD i "")
              (windowVals.sum / (windowVals.length : Rat))
          else results) [])

/-- Spec wording, selection step: all entries whose metric equals the
normalized target, in collection order. -/
def metricSelection (entries : List Entry) (metric : String) : List Entry :=
  entries.filter (fun e => e.metric == normalizeMetric metric)

/-- Spec wording, sort step: the selection sorted by date ascending in
lexicographic string order, stably. -/
def sortedSelection (entries : List Entry) (metric : String) : List Entry :=
  (metricSelection entries metric).mergeSort dateLe

/-- Spec wording: arithmetic mean of the `window` most recent values ending
at index `i` of `numbers`. -/
def windowMean (numbers : List Rat) (window : Nat) (i : Nat) : Rat :=
  let w := (numbers.take (i + 1)).drop (i + 1 - window)
  w.sum / (w.length : Rat)

/-- The `moving_average` result as §4.2 of the spec words it: for every
0-based index `i` of the sorted selection with `i + 1 >= window`, record the
mean of the window ending at `i`, keyed by the date at `i`. -/
def movingAverageSpec (entries : List Entry) (metric : String) (window : Int) :
    List (String × Rat) :=
  let sorted := sortedSelection entries metric
  let numbers := sorted.map (fun e => e.value)
  let dates := sorted.map (fun e => e.date)
  (((List.range sorted.length).filter
        (fun (i : Nat) => decide (window ≤ (i : Int) + 1))).map
      (fun (i : Nat) => (dates.getD i "", windowMean numbers window.toNat i))).foldl
    (fun d p => dictInsert d p.1 p.2) []

/-- Result dictionary of `summarize_week`.  The zero-count result carries
only the `count` and `values` keys; the positive-count result additionally
carries `min`, `max` and `mean`. -/
inductive WeekSummary where
  | zero : WeekSummary
  | stats (count : Nat) (vmin vmax vmean : Rat) (values : List Rat) : WeekSummary
deriving DecidableEq, Repr

/-- Python `min` over a nonempty list, as a left fold from the head. -/
def listMinR : List Rat → Rat
  | [] => 0
  | x :: t => t.foldl min x

/-- Python `max` over a nonempty list, as a left fold from the head. -/
def listMaxR : List Rat → Rat
  | [] => 0
  | x :: t => t.foldl max x

/-- The generator `datetime.strptime(e.date, DATE_FMT) for e in entries`
consumed by `max(...)`: day numbers of every entry of the collection,
failing at the first date that does not parse. -/
def parseAllDayNums : List Entry → Except PyErr (List Int)
  | [] => Except.ok []
  | e :: t =>
    match parseDate e.date with
    | none => Except.error PyErr.invalidInput
    | some d =>
      match parseAllDayNums t with
      | Except.error err => Except.error err
      | Except.ok ns => Except.ok ((dayNumber d : Int) :: ns)

/-- The list comprehension selecting values in `summarize_week`:
`[e.value for e in entries if e.metric == metric and start <= strptime(e.date) <= end]`.
The metric test short-circuits, so a date of a non-matching entry is never
parsed; a matching entry whose date does not parse raises. -/
def selectWeek (entries : List Entry) (m : String) (lo hi : Int) :
    Except PyErr (List Rat) :=
  match entries with
  | [] => Except.ok []
  | e :: t =>
    if e.metric == m then
      match parseDate e.date with
      | none => Except.error PyErr.invalidInput
      | some d =>
        match selectWeek t m lo hi with
        | Except.error err => Except.error err
        | Except.ok rest =>
          Except.ok
            (if lo ≤ (dayNumber d : Int) ∧ (dayNumber d : Int) ≤ hi then
              e.value :: rest
            else rest)
    else selectWeek t m lo hi

/-- Shallow embedding of `summarize_week(entries, metric, end_date)`.
An empty collection returns the zero summary before `end_date` is ever
looked at; otherwise the anchor is the parsed `end_date` or, when absent,
the maximum date over all entries, and the window is the six days before the
anchor plus the anchor itself. -/
def summarize_week (entries : List Entry) (metric : String)
    (endDate : Option String) : Except PyErr WeekSummary :=
  let m := normalizeMetric metric
  if entries.isEmpty then Except.ok WeekSummary.zero
  else
    let endRes : Except PyErr Int :=
      match endDate with
      | none =>
        match parseAllDayNums entries with
        | Except.error err => Except.error err
        | Except.ok [] => Except.error PyErr.invalidInput
        | Except.ok (n :: rest) => Except.ok (rest.foldl max n)
      | some s =>
        match parseDate s with
        | some d => Except.ok (dayNumber d : Int)
        | none => Except.error PyErr.invalidInput
    match endRes with
    | Except.error err => Except.error err
    | Except.ok endN =>
      match selectWeek entries m (endN - 6) endN with
      | Except.error err => Except.error err
      | Except.ok selected =>
        if selected.isEmpty then Except.ok WeekSummary.zero
        else
          Except.ok (WeekSummary.stats selected.length (listMinR selected)
            (listMaxR selected) (selected.sum / (selected.length : Rat)) selected)

/-- Spec wording: the date of `e` lies in the inclusive window `[lo, hi]`
of day numbers. -/
def inWeekWindow (lo hi : Int) (e : Entry) : Bool :=
  match parseDate e.date with
  | some d => decide (lo ≤ (dayNumber d : Int) ∧ (dayNumber d : Int) ≤ hi)
  | none => false

/-- Spec wording, §4.3 selection: values of entries whose normalized metric
matches and whose date falls within the inclusive 7-day window ending at
`endN`, in their original collection order. -/
def weekSelection (entries : List Entry) (m : String) (endN : Int) : List Rat :=
  (entries.filter (fun e => e.metric == m && inWeekWindow (endN - 6) endN e)).map
    (fun e => e.value)

/-- Spec wording, §4.3 result: count plus min, max, mean and the raw values
when any value was selected, the bare zero record otherwise. -/
def weekSummaryOf (sel : List Rat) : WeekSummary :=
  if sel.isEmpty then WeekSummary.zero
  else
    WeekSummary.stats sel.length (listMinR sel) (listMaxR sel)
      (sel.sum / (sel.length : Rat)) sel

/-- Text the csv module writes for a float value.  The exact digits of
Python float repr are irrelevant to the claims (round trip is stated modulo
floating-point text formatting), so the model prints the rational exactly. -/
def formatValue (q : Rat) : String :=
  if q.den = 1 then toString q.num else toString q.num ++ "/" ++ toString q.den

/-- Characters that force the csv writer to quote a field under
QUOTE_MINIMAL: the delimiter, the quote char and the line terminator. -/
def csvSpecial (c : Char) : Bool :=
  c == ',' || c == '"' || c == '\r' || c == '\n'

/-- Quote doubling inside a quoted csv field. -/
def escapeQuotes : List Char → List Char
  | [] => []
  | c :: t =>
    if c == '"' then '"' :: '"' :: escapeQuotes t else c :: escapeQuotes t

/-- Serialized form of one csv field (QUOTE_MINIMAL). -/
def fieldChars (f : List Char) : List Char :=
  if f.any csvSpecial then '"' :: (escapeQuotes f ++ ['"']) else f

/-- Serialized form of one csv record: comma-separated fields terminated by
the writer's default line terminator. -/
def rowChars : List (List Char) → List Char
  | [] => ['\r', '\n']
  | [f] => fieldChars f ++ ['\r', '\n']
  | f :: t => fieldChars f ++ ',' :: rowChars t

/-- Serialized form of a whole csv file, one record after another. -/
def fileChars (rows : List (List (List Char))) : List Char :=
  rows.foldr (fun r acc => rowChars r ++ acc) []

/-- The three cells `DictWriter.writerow` emits for one entry. -/
def entryRow (e : Entry) : List (List Char) :=
  [e.date.toList, e.metric.toList, (formatValue e.value).toList]

/-- Shallow embedding of `export_csv(entries, filename)`: the text written
to the file, a `date,metric,value` header followed by one row per entry in
collection order. -/
def export_csv (entries : List Entry) : String :=
  String.mk
    (fileChars (["date".toList, "metric".toList, "value".toList]
      :: entries.map entryRow))

/-- Csv reading, quoted field: content after the opening quote up to the
closing quote, undoing quote doubling; returns the field and the input after
the closing quote. -/
def parseQuoted : List Char → List Char × List Char
  | [] => ([], [])
  | '"' :: '"' :: rest =>
    let p := parseQuoted rest
    ('"' :: p.1, p.2)
  | '"' :: rest => ([], rest)
  | c :: rest =>
    let p := parseQuoted rest
    (c :: p.1, p.2)

/-- Csv reading, unquoted field: content up to the next delimiter or record
terminator, which is not consumed. -/
def parseUnquoted : List Char → List Char × List Char
  | [] => ([], [])
  | c :: rest =>
    if c == ',' || c == '\r' || c == '\n' then ([], c :: rest)
    else
      let p := parseUnquoted rest
      (c :: p.1, p.2)

/-- Csv reading, one field: quoted when it starts with the quote char,
unquoted otherwise. -/
def parseField (cs : List Char) : List Char × List Char :=
  match cs with
  | [] => parseUnquoted []
  | c :: t => if c = '"' then parseQuoted t else parseUnquoted (c :: t)

/-- Csv reading, one record: fields separated by commas until a record
terminator (or the end of input).  Fuel bounds the number of fields and is
chosen large enough by the caller. -/
def parseRecordF : Nat → List Char → List (List Char) × List Char
  | 0, cs => ([], cs)
  | fuel + 1, cs =>
    let p := parseField cs
    match p.2 with
    | ',' :: t =>
      let q := parseRecordF fuel t
      (p.1 :: q.1, q.2)
    | '\r' :: '\n' :: t => ([p.1], t)
    | '\r' :: t => ([p.1], t)
    | '\n' :: t => ([p.1], t)
    | _ => ([p.1], p.2)

/-- Csv reading, all records of the input.  Fuel bounds the number of
records and is chosen large enough by the caller. -/
def parseRecordsF : Nat → List Char → List (List (List Char))
  | 0, _ => []
  | fuel + 1, cs =>
    if cs.isEmpty then []
    else
      let p := parseRecordF (cs.length + 1) cs
      p.1 :: parseRecordsF fuel p.2

/-- Model of re-reading an exported file with `csv.reader`: the ordered list
of records, each a list of cell strings. -/
def readCsv (s : String) : List (List String) :=
  (parseRecordsF (s.toList.length + 1) s.toList).map
    (fun r => r.map (fun f => String.mk f))

/-- Day number of an entry's parsed date, zero when the date does not parse
(used only under parsability hypotheses). -/
def entryDayNum (e : Entry) : Int :=
  match parseDate e.date with
  | some d => (dayNumber d : Int)
  | none => 0

/-! ## Theorems -/

theorem foldl_max_mem {α : Type} [LinearOrder α] (x : α) (l : List α) :
    l.foldl max x ∈ x :: l := by
  induction l generalizing x with
  | nil => simp
  | cons y t ih =>
    simp only [List.foldl_cons]
    rcases List.mem_cons.mp (ih (max x y)) with h1 | h1
    · rcases max_choice x y with hm | hm <;> rw [hm] at h1 ⊢ <;> simp [h1]
    · simp [h1]

theorem le_foldl_max {α : Type} [LinearOrder α] (x : α) (l : List α) :
    ∀ y ∈ x :: l, y ≤ l.foldl max x := by
  induction l generalizing x with
  | nil =>
    intro y hy
    simp only [List.mem_singleton] at hy
    simp [hy]
  | cons z t ih =>
    intro y hy
    simp only [List.foldl_cons]
    have hmax : max x z ≤ t.foldl max (max x z) :=
      ih (max x z) (max x z) (List.mem_cons_self _ _)
    rcases List.mem_cons.mp hy with h1 | h1
    · rw [h1]
      exact le_trans (le_max_left x z) hmax
    · rcases List.mem_cons.mp h1 with h2 | h2
      · rw [h2]
        exact le_trans (le_max_right x z) hmax
      · exact ih (max x z) y (List.mem_cons_of_mem _ h2)

theorem foldl_min_mem {α : Type} [LinearOrder α] (x : α) (l : List α) :
    l.foldl min x ∈ x :: l := by
  induction l generalizing x with
  | nil => simp
  | cons y t ih =>
    simp only [List.foldl_cons]
    rcases List.mem_cons.mp (ih (min x y)) with h1 | h1
    · rcases min_choice x y with hm | hm <;> rw [hm] at h1 ⊢ <;> simp [h1]
    · simp [h1]

theorem foldl_min_le {α : Type} [LinearOrder α] (x : α) (l : List α) :
    ∀ y ∈ x :: l, l.foldl min x ≤ y := by
  induction l generalizing x with
  | nil =>
    intro y hy
    simp only [List.mem_singleton] at hy
    simp [hy]
  | cons z t ih =>
    intro y hy
    simp only [List.foldl_cons]
    have hmin : t.foldl min (min x z) ≤ min x z :=
      ih (min x z) (min x z) (List.mem_cons_self _ _)
    rcases List.mem_cons.mp hy with h1 | h1
    · rw [h1]
      exact le_trans hmin (min_le_left x z)
    · rcases List.mem_cons.mp h1 with h2 | h2
      · rw [h2]
        exact le_trans hmin (min_le_right x z)
      · exact ih (min x z) y (List.mem_cons_of_mem _ h2)

theorem selectWeek_eq_weekSelection (entries : List Entry) (m : String)
    (endN : Int)
    (h : ∀ e ∈ entries, e.metric = m → (parseDate e.date).isSome) :
    selectWeek entries m (endN - 6) endN
      = Except.ok (weekSelection entries m endN) := by
  induction entries with
  | nil => rfl
  | cons e t ih =>
    have ht : ∀ x ∈ t, x.metric = m → (parseDate x.date).isSome :=
      fun x hx => h x (List.mem_cons_of_mem _ hx)
    by_cases hm : e.metric = m
    · have hsome := h e (List.mem_cons_self _ _) hm
      obtain ⟨d, hd⟩ := Option.isSome_iff_exists.mp hsome
      by_cases hw : endN - 6 ≤ (dayNumber d : Int) ∧ (dayNumber d : Int) ≤ endN
      · have hwin : inWeekWindow (endN - 6) endN e = true := by
          simp only [inWeekWindow, hd]
          exact decide_eq_true hw
        simp [selectWeek, hm, hd, hw, ih ht, weekSelection, List.filter_cons, hwin]
      · have hwin : inWeekWindow (endN - 6) endN e = false := by
          simp only [inWeekWindow, hd]
          exact decide_eq_false hw
        simp [selectWeek, hm, hd, ih ht, weekSelection, List.filter_cons, hwin]
        omega
    · simp [selectWeek, hm, ih ht, weekSelection, List.filter_cons]

theorem parseAllDayNums_ok (entries : List Entry)
    (h : ∀ e ∈ entries, (parseDate e.date).isSome) :
    parseAllDayNums entries = Except.ok (entries.map entryDayNum) := by
  induction entries with
  | nil => rfl
  | cons e t ih =>
    have hsome := h e (List.mem_cons_self _ _)
    obtain ⟨d, hd⟩ := Option.isSome_iff_exists.mp hsome
    have ht : ∀ x ∈ t, (parseDate x.date).isSome :=
      fun x hx => h x (List.mem_cons_of_mem _ hx)
    simp [parseAllDayNums, hd, ih ht, entryDayNum]

theorem weekSelection_eq_nil (entries : List Entry) (m : String) (endN : Int)
    (h : ∀ e ∈ entries, e.metric = m → inWeekWindow (endN - 6) endN e = false) :
    weekSelection entries m endN = [] := by
  induction entries with
  | nil => rfl
  | cons e t ih =>
    have ht : ∀ x ∈ t, x.metric = m → inWeekWindow (endN - 6) endN x = false :=
      fun x hx => h x (List.mem_cons_of_mem _ hx)
    by_cases hm : e.metric = m
    · simpa [weekSelection, List.filter_cons, hm,
        h e (List.mem_cons_self _ _) hm] using ih ht
    · simpa [weekSelection, List.filter_cons, hm] using ih ht

/-- C3: with a valid `end_date`, `summarize_week` selects exactly the values
of metric-matching entries inside the inclusive 7-day window ending at that
date, in collection order; a positive count yields the stats record whose
min and max bound the selection and whose mean is the sum over the count,
while an empty selection yields the bare zero record. -/
theorem summarize_week_valid_end (entries : List Entry) (metric ed : String)
    (dt : Date) (sel : List Rat)
    (hed : parseDate ed = some dt)
    (hsel : sel = weekSelection entries (normalizeMetric metric)
      ((dayNumber dt : Int)))
    (hwf : ∀ e ∈ entries,
      e.metric = normalizeMetric metric → (parseDate e.date).isSome) :
    summarize_week entries metric (some ed) = Except.ok (weekSummaryOf sel)
    ∧ (sel = [] → weekSummaryOf sel = WeekSummary.zero)
    ∧ (sel ≠ [] →
        weekSummaryOf sel
          = WeekSummary.stats sel.length (listMinR sel) (listMaxR sel)
              (sel.sum / (sel.length : Rat)) sel
        ∧ listMinR sel ∈ sel ∧ (∀ x ∈ sel, listMinR sel ≤ x)
        ∧ listMaxR sel ∈ sel ∧ (∀ x ∈ sel, x ≤ listMaxR sel)) := by
  subst hsel
  refine ⟨?_, fun h0 => by simp [weekSummaryOf, h0], fun hne => ?_⟩
  · cases entries with
    | nil => simp [summarize_week, weekSelection, weekSummaryOf]
    | cons e t =>
      have hsw := selectWeek_eq_weekSelection (e :: t) (normalizeMetric metric)
        ((dayNumber dt : Int)) hwf
      simp only [summarize_week, List.isEmpty_cons, hed, hsw]
      cases hempty : (weekSelection (e :: t) (normalizeMetric metric)
          ((dayNumber dt : Int))).isEmpty <;>
        simp [weekSummaryOf, hempty]
  · obtain ⟨x, t', hxt⟩ := List.exists_cons_of_ne_nil hne
    rw [hxt]
    refine ⟨by simp [weekSummaryOf], ?_, ?_, ?_, ?_⟩
    · simpa [listMinR] using foldl_min_mem x t'
    · intro y hy
      simpa [listMinR] using foldl_min_le x t' y (by simpa using hy)
    · simpa [listMaxR] using foldl_max_mem x t'
    · intro y hy
      simpa [listMaxR] using le_foldl_max x t' y (by simpa using hy)

/-- Witness for `summarize_week_valid_end`: one in-window matching entry,
one matching entry eight days earlier, one entry of another metric. -/
theorem summarize_week_valid_end_witness :
    summarize_week
        [⟨"2025-09-07", "weight", 70⟩, ⟨"2025-08-30", "weight", 60⟩,
          ⟨"2025-09-05", "steps", 100⟩] "weight" (some "2025-09-07")
      = Except.ok (WeekSummary.stats 1 70 70 70 [70]) := by
  have h := (summarize_week_valid_end
      [⟨"2025-09-07", "weight", 70⟩, ⟨"2025-08-30", "weight", 60⟩,
        ⟨"2025-09-05", "steps", 100⟩] "weight" "2025-09-07" ⟨2025, 9, 7⟩ [70]
      (by decide) rfl (by decide)).1
  rw [h]
  norm_num [weekSummaryOf, listMinR, listMaxR]

/-- C4: without an `end_date`, the anchor of the 7-day window is the latest
date over all entries of the collection regardless of metric: it is attained
by some entry, bounds every entry's date, and the summary equals the one
computed for that anchor; hence a metric whose entries all lie more than six
days before that global maximum summarizes to the zero record. -/
theorem summarize_week_default_end (entries : List Entry) (metric : String)
    (hne : entries ≠ [])
    (hwf : ∀ e ∈ entries, (parseDate e.date).isSome) :
    ∃ endN : Int,
      (∃ e ∈ entries, entryDayNum e = endN)
      ∧ (∀ e ∈ entries, entryDayNum e ≤ endN)
      ∧ summarize_week entries metric none
          = Except.ok (weekSummaryOf
              (weekSelection entries (normalizeMetric metric) endN))
      ∧ ((∀ e ∈ entries,
            e.metric = normalizeMetric metric → entryDayNum e < endN - 6)
          → summarize_week entries metric none = Except.ok WeekSummary.zero) := by
  cases entries with
  | nil => exact absurd rfl hne
  | cons e0 t =>
    refine ⟨(t.map entryDayNum).foldl max (entryDayNum e0), ?_, ?_, ?_, ?_⟩
    · rcases List.mem_cons.mp
        (foldl_max_mem (entryDayNum e0) (t.map entryDayNum)) with h1 | h1
      · exact ⟨e0, List.mem_cons_self _ _, h1.symm⟩
      · obtain ⟨e, he, heq⟩ := List.mem_map.mp h1
        exact ⟨e, List.mem_cons_of_mem _ he, heq⟩
    · intro e he
      rcases List.mem_cons.mp he with h1 | h1
      · rw [h1]
        exact le_foldl_max _ _ _ (List.mem_cons_self _ _)
      · exact le_foldl_max _ _ _
          (List.mem_cons_of_mem _ (List.mem_map_of_mem _ h1))
    · have hpa := parseAllDayNums_ok (e0 :: t) hwf
      have hsw := selectWeek_eq_weekSelection (e0 :: t) (normalizeMetric metric)
        ((t.map entryDayNum).foldl max (entryDayNum e0)) (fun e he _ => hwf e he)
      simp only [summarize_week, List.isEmpty_cons, hpa, List.map_cons, hsw]
      cases hempty : (weekSelection (e0 :: t) (normalizeMetric metric)
          ((t.map entryDayNum).foldl max (entryDayNum e0))).isEmpty <;>
        simp [weekSummaryOf, hempty]
    · intro hfar
      have hwsel : weekSelection (e0 :: t) (normalizeMetric metric)
          ((t.map entryDayNum).foldl max (entryDayNum e0)) = [] := by
        apply weekSelection_eq_nil
        intro e he hm
        obtain ⟨d, hd⟩ := Option.isSome_iff_exists.mp (hwf e he)
        have hdn : entryDayNum e = (dayNumber d : Int) := by
          simp [entryDayNum, hd]
        have hlt := hfar e he hm
        rw [hdn] at hlt
        simp only [inWeekWindow, hd]
        exact decide_eq_false (by omega)
      have hpa := parseAllDayNums_ok (e0 :: t) hwf
      have hsw := selectWeek_eq_weekSelection (e0 :: t) (normalizeMetric metric)
        ((t.map entryDayNum).foldl max (entryDayNum e0)) (fun e he _ => hwf e he)
      simp only [summarize_week, List.isEmpty_cons, hpa, List.map_cons, hsw,
        hwsel]
      simp

/-- Witness for `summarize_week_default_end`: the only "steps" entry lies
nine days before the collection's latest date, which belongs to a "weight"
entry, so the default-anchor summary of "steps" is empty. -/
theorem summarize_week_default_end_witness :
    summarize_week
        [⟨"2025-09-01", "steps", 100⟩, ⟨"2025-09-10", "weight", 70⟩]
        "steps" none
      = Except.ok WeekSummary.zero := by
  obtain ⟨endN, hmem, hub, hmain, hfar⟩ := summarize_week_default_end
    [⟨"2025-09-01", "steps", 100⟩, ⟨"2025-09-10", "weight", 70⟩] "steps"
    (List.cons_ne_nil _ _) (by decide)
  have h2 : entryDayNum ⟨"2025-09-10", "weight", 70⟩ ≤ endN :=
    hub _ (List.mem_cons_of_mem _ (List.mem_cons_self _ _))
  have hend : endN = entryDayNum ⟨"2025-09-10", "weight", 70⟩ := by
    obtain ⟨e, he, heq⟩ := hmem
    rcases List.mem_cons.mp he with h1 | h1
    · rw [h1] at heq
      have hcmp : entryDayNum (⟨"2025-09-01", "steps", 100⟩ : Entry)
          < entryDayNum (⟨"2025-09-10", "weight", 70⟩ : Entry) := by decide
      omega
    · have h1' := List.mem_singleton.mp h1
      rw [h1'] at heq
      omega
  apply hfar
  intro e he hm
  have hns : normalizeMetric "steps" = "steps" := by decide
  rw [hns] at hm
  rcases List.mem_cons.mp he with h1 | h1
  · rw [h1]
    rw [hend]
    decide
  · have h1' := List.mem_singleton.mp h1
    rw [h1'] at hm
    exact absurd hm (by decide)

/-- C10: on an empty collection `summarize_week` returns the zero-count
summary before the `end_date` argument is ever parsed, so every metric and
every `end_date`, present or absent, parsable or not, succeeds with
`{count: 0, values: []}`. -/
theorem summarize_week_empty_entries (metric : String) (endDate : Option String) :
    summarize_week [] metric endDate = Except.ok WeekSummary.zero := rfl

/-- C9: `moving_average` rejects every window smaller than one with
`InvalidInput`; the guard fires before the collection is looked at, so the
result does not depend on the entries. -/
theorem moving_average_bad_window (entries : List Entry) (metric : String)
    (window : Int) (h : window < 1) :
    moving_average entries metric window = Except.error PyErr.invalidInput := by
  unfold moving_average
  rw [if_pos h]

/-- Witness for `moving_average_bad_window` at window 0 on a nonempty
collection. -/
theorem moving_average_bad_window_witness :
    moving_average [⟨"2025-09-01", "weight", 70⟩] "weight" 0
      = Except.error PyErr.invalidInput :=
  moving_average_bad_window [⟨"2025-09-01", "weight", 70⟩] "weight" 0 (by decide)

/-- C1 counterexample: with an empty collection, `summarize_week` does not
fail on an unparsable `end_date` and does not propagate a failure when
`end_date` is absent; it returns the zero summary in both situations, even
though "not-a-date" does not parse. -/
theorem summarize_week_empty_cex :
    summarize_week [] "weight" (some "not-a-date") = Except.ok WeekSummary.zero
    ∧ summarize_week [] "weight" none = Except.ok WeekSummary.zero
    ∧ parseDate "not-a-date" = none :=
  ⟨rfl, rfl, by decide⟩

/-- C1 amended: an unparsable `end_date` makes `summarize_week` fail with
`InvalidInput` only when the collection is nonempty; an empty collection
short-circuits to the zero summary for any `end_date`, present or absent,
before the date is parsed. -/
theorem summarize_week_invalid_end (entries : List Entry) (metric ed : String)
    (hne : entries ≠ []) (hbad : parseDate ed = none) :
    summarize_week entries metric (some ed) = Except.error PyErr.invalidInput
    ∧ summarize_week [] metric (some ed) = Except.ok WeekSummary.zero
    ∧ summarize_week [] metric none = Except.ok WeekSummary.zero := by
  refine ⟨?_, rfl, rfl⟩
  cases entries with
  | nil => exact absurd rfl hne
  | cons e t => simp [summarize_week, hbad]

/-- Witness for `summarize_week_invalid_end` on a one-entry collection and
the unparsable end date "oops". -/
theorem summarize_week_invalid_end_witness :
    summarize_week [⟨"2025-09-01", "weight", 70⟩] "weight" (some "oops")
      = Except.error PyErr.invalidInput
    ∧ summarize_week [] "weight" (some "oops") = Except.ok WeekSummary.zero
    ∧ summarize_week [] "weight" none = Except.ok WeekSummary.zero :=
  summarize_week_invalid_end [⟨"2025-09-01", "weight", 70⟩] "weight" "oops"
    (List.cons_ne_nil _ _) (by decide)

/-- C6: `add_entry` fails with `InvalidInput` exactly when the date does not
parse in the program's `YYYY-MM-DD` format or the value is not numeric; the
metric is never validated, and on failure the collection comes back exactly
as it was (the failing call returns the unchanged collection). -/
theorem add_entry_invalid_iff (entries : List Entry) (date metric : String)
    (value : PyVal) :
    add_entry entries date metric value = (entries, Except.error PyErr.invalidInput)
      ↔ (parseDate date = none ∨ pyFloat value = none) := by
  unfold add_entry
  cases h1 : parseDate date with
  | none => simp
  | some d =>
    cases h2 : pyFloat value with
    | none => simp
    | some q => simp

/-- C7: on a valid date and numeric value, `add_entry` appends exactly one
record at the end of the collection, leaving the earlier entries unchanged
and in order, and returns that record with the metric trimmed and
lower-cased, the date kept verbatim and the value converted. -/
theorem add_entry_success (entries : List Entry) (date metric : String)
    (value : PyVal) (d : Date) (q : Rat)
    (hd : parseDate date = some d) (hv : pyFloat value = some q) :
    add_entry entries date metric value =
      (entries ++ [⟨date, normalizeMetric metric, q⟩],
        Except.ok ⟨date, normalizeMetric metric, q⟩) := by
  unfold add_entry
  rw [hd, hv]

/-- Witness for `add_entry_success`: appending a second entry with an
unnormalized metric name. -/
theorem add_entry_success_witness :
    add_entry [⟨"2025-09-01", "weight", 70⟩] "2025-09-02" " Weight " (PyVal.num 71)
      = ([⟨"2025-09-01", "weight", 70⟩, ⟨"2025-09-02", "weight", 71⟩],
          Except.ok ⟨"2025-09-02", "weight", 71⟩) := by
  have h := add_entry_success [⟨"2025-09-01", "weight", 70⟩] "2025-09-02"
    " Weight " (PyVal.num 71) ⟨2025, 9, 2⟩ 71 (by decide) rfl
  have hm : normalizeMetric " Weight " = "weight" := by decide
  rw [h, hm]
  simp

theorem charsLe_refl (cs : List Char) : charsLe cs cs = true := by
  induction cs with
  | nil => rfl
  | cons a t ih => simp [charsLe, ih]

theorem charsLe_total (a b : List Char) : charsLe a b || charsLe b a := by
  induction a generalizing b with
  | nil => simp [charsLe]
  | cons x xs ih =>
    cases b with
    | nil => simp [charsLe]
    | cons y ys =>
      rcases Nat.lt_trichotomy x.toNat y.toNat with h | h | h
      · simp [charsLe, h]
      · have h2 : ¬ x.toNat < y.toNat := by omega
        have h3 : ¬ y.toNat < x.toNat := by omega
        simpa [charsLe, h2, h3] using ih ys
      · simp [charsLe, h]

theorem charsLe_trans :
    ∀ (a b c : List Char), charsLe a b → charsLe b c → charsLe a c := by
  intro a
  induction a with
  | nil => intro b c _ _; rfl
  | cons x xs ih =>
    intro b c hab hbc
    cases b with
    | nil => simp [charsLe] at hab
    | cons y ys =>
      cases c with
      | nil => simp [charsLe] at hbc
      | cons z zs =>
        simp only [charsLe] at hab hbc ⊢
        rcases Nat.lt_trichotomy x.toNat y.toNat with h1 | h1 | h1
        · rcases Nat.lt_trichotomy y.toNat z.toNat with h2 | h2 | h2
          · simp [show x.toNat < z.toNat by omega]
          · simp [show x.toNat < z.toNat by omega]
          · simp [h2, show ¬ y.toNat < z.toNat by omega] at hbc
        · rcases Nat.lt_trichotomy y.toNat z.toNat with h2 | h2 | h2
          · simp [show x.toNat < z.toNat by omega]
          · have hxz : ¬ x.toNat < z.toNat := by omega
            have hzx : ¬ z.toNat < x.toNat := by omega
            simp only [show ¬ x.toNat < y.toNat by omega,
              show ¬ y.toNat < x.toNat by omega, if_false, ite_false] at hab
            simp only [show ¬ y.toNat < z.toNat by omega,
              show ¬ z.toNat < y.toNat by omega, if_false, ite_false] at hbc
            simp only [hxz, hzx, if_false, ite_false]
            exact ih ys zs hab hbc
          · simp [h2, show ¬ y.toNat < z.toNat by omega] at hbc
        · simp [h1, show ¬ x.toNat < y.toNat by omega] at hab

theorem dateLe_trans :
    ∀ (a b c : Entry), dateLe a b → dateLe b c → dateLe a c :=
  fun a b c hab hbc => charsLe_trans _ _ _ hab hbc

theorem dateLe_total : ∀ (a b : Entry), dateLe a b || dateLe b a :=
  fun a b => charsLe_total _ _

theorem foldl_guard_eq_filter {δ : Type} (p : Nat → Prop) [DecidablePred p]
    (f : δ → Nat → δ) :
    ∀ (l : List Nat) (init : δ),
      l.foldl (fun d i => if p i then f d i else d) init
        = (l.filter (fun i => decide (p i))).foldl f init := by
  intro l
  induction l with
  | nil => intro init; rfl
  | cons a t ih =>
    intro init
    by_cases hp : p a <;> simp [List.filter_cons, hp, ih]


theorem lookup_map_overwrite_self (d : List (String × Rat)) (k : String)
    (v : Rat) :
    (d.map (fun p => cond (p.1 == k) (k, v) p)).lookup k
      = if d.any (fun p => p.1 == k) then some v else none := by
  induction d with
  | nil => simp
  | cons p t ih =>
    obtain ⟨pk, pv⟩ := p
    cases hb : (pk == k) with
    | true => simp [List.lookup_cons, hb]
    | false =>
      have hkp : (k == pk) = false :=
        beq_eq_false_iff_ne.mpr (Ne.symm (beq_eq_false_iff_ne.mp hb))
      simp [List.lookup_cons, hb, hkp, ih]
      rw [hb, Bool.false_or]

theorem lookup_map_overwrite_other (d : List (String × Rat)) (k k' : String)
    (v : Rat) (hne : k' ≠ k) :
    (d.map (fun p => cond (p.1 == k) (k, v) p)).lookup k'
      = d.lookup k' := by
  induction d with
  | nil => simp
  | cons p t ih =>
    obtain ⟨pk, pv⟩ := p
    cases hb : (pk == k) with
    | true =>
      have hk1 : (k' == k) = false := beq_eq_false_iff_ne.mpr hne
      have hk2 : (k' == pk) = false :=
        beq_eq_false_iff_ne.mpr ((eq_of_beq hb).symm ▸ hne)
      simp [List.lookup_cons, hb, hk1, hk2, ih]
    | false => simp [List.lookup_cons, hb, ih]

theorem lookup_append_self (d : List (String × Rat)) (k : String) (v : Rat)
    (h : d.lookup k = none) :
    (d ++ [(k, v)]).lookup k = some v := by
  induction d with
  | nil => simp [List.lookup_cons]
  | cons p t ih =>
    obtain ⟨pk, pv⟩ := p
    rw [List.lookup_cons] at h
    rw [List.cons_append, List.lookup_cons]
    cases hbeq : (k == pk) with
    | true => rw [hbeq] at h; simp at h
    | false =>
      rw [hbeq] at h
      exact ih h

theorem lookup_append_other (d : List (String × Rat)) (k k' : String) (v : Rat)
    (hne : k' ≠ k) :
    (d ++ [(k, v)]).lookup k' = d.lookup k' := by
  induction d with
  | nil =>
    have hk1 : (k' == k) = false := beq_eq_false_iff_ne.mpr hne
    simp [List.lookup_cons, hk1]
  | cons p t ih =>
    obtain ⟨pk, pv⟩ := p
    rw [List.cons_append, List.lookup_cons, List.lookup_cons]
    cases hbeq : (k' == pk) with
    | true => rfl
    | false => exact ih

theorem lookup_not_any (d : List (String × Rat)) (k : String)
    (h : d.any (fun p => p.1 == k) = false) :
    d.lookup k = none := by
  induction d with
  | nil => rfl
  | cons p t ih =>
    obtain ⟨pk, pv⟩ := p
    simp only [List.any_cons, Bool.or_eq_false_iff] at h
    have hbeq : (k == pk) = false :=
      beq_eq_false_iff_ne.mpr (Ne.symm (beq_eq_false_iff_ne.mp h.1))
    rw [List.lookup_cons, hbeq]
    exact ih h.2

theorem lookup_dictInsert (d : List (String × Rat)) (k k' : String) (v : Rat) :
    (dictInsert d k v).lookup k' = if k' = k then some v else d.lookup k' := by
  unfold dictInsert
  cases hany : d.any (fun p => p.1 == k) with
  | true =>
    simp only [if_true]
    by_cases hk : k' = k
    · rw [hk, lookup_map_overwrite_self, hany, if_pos rfl, if_pos rfl]
    · rw [lookup_map_overwrite_other d k k' v hk, if_neg hk]
  | false =>
    simp only [Bool.false_eq_true, if_false]
    by_cases hk : k' = k
    · rw [hk, lookup_append_self d k v (lookup_not_any d k hany), if_pos rfl]
    · rw [lookup_append_other d k k' v hk, if_neg hk]

theorem lookup_foldl_dictInsert (ps : List (String × Rat)) :
    ∀ (init : List (String × Rat)) (k : String),
      (ps.foldl (fun d p => dictInsert d p.1 p.2) init).lookup k
        = (match (ps.filter (fun p => p.1 == k)).getLast? with
            | some p => some p.2
            | none => init.lookup k) := by
  induction ps with
  | nil => intro init k; rfl
  | cons p t ih =>
    intro init k
    rw [List.foldl_cons, ih, List.filter_cons]
    cases hp : (p.1 == k) with
    | true =>
      simp only [hp, if_true]
      cases htf : t.filter (fun q => q.1 == k) with
      | nil =>
        have hlast : [p].getLast? = some p := rfl
        simp only [List.getLast?_nil, hlast]
        rw [lookup_dictInsert, if_pos (eq_of_beq hp).symm]
      | cons q r =>
        rw [List.getLast?_cons_cons]
        have hsome : ((q :: r).getLast?).isSome := by
          cases hgl : (q :: r).getLast? with
          | none => exact absurd (List.getLast?_eq_none_iff.mp hgl) (by simp)
          | some x => rfl
        obtain ⟨x, hx⟩ := Option.isSome_iff_exists.mp hsome
        rw [hx]
    | false =>
      simp only [hp, Bool.false_eq_true, if_false]
      cases htf : t.filter (fun q => q.1 == k) with
      | nil =>
        simp only [List.getLast?_nil]
        rw [lookup_dictInsert, if_neg (Ne.symm (beq_eq_false_iff_ne.mp hp))]
      | cons q r => rfl

theorem mergeSort_filter_date (sel : List Entry) (dstr : String) :
    (sel.mergeSort dateLe).filter (fun e => e.date == dstr)
      = sel.filter (fun e => e.date == dstr) := by
  have hperm : List.Perm
      ((sel.mergeSort dateLe).filter (fun e => e.date == dstr))
      (sel.filter (fun e => e.date == dstr)) :=
    List.Perm.filter (fun e => e.date == dstr) (List.mergeSort_perm sel dateLe)
  have hpw : (sel.filter (fun e => e.date == dstr)).Pairwise
      (fun a b => dateLe a b) := by
    apply List.pairwise_of_forall_mem_list
    intro a ha b hb
    have hda : a.date = dstr := by
      simpa using (List.mem_filter.mp ha).2
    have hdb : b.date = dstr := by
      simpa using (List.mem_filter.mp hb).2
    simp [dateLe, strLe, hda, hdb, charsLe_refl]
  have hfe : (sel.filter (fun e => e.date == dstr)).filter
      (fun e => e.date == dstr) = sel.filter (fun e => e.date == dstr) :=
    List.filter_eq_self.mpr (fun a ha => (List.mem_filter.mp ha).2)
  have hsub1 : List.Sublist (sel.filter (fun e => e.date == dstr))
      (sel.mergeSort dateLe) :=
    List.sublist_mergeSort dateLe_trans dateLe_total hpw (List.filter_sublist sel)
  have hsub : List.Sublist (sel.filter (fun e => e.date == dstr))
      ((sel.mergeSort dateLe).filter (fun e => e.date == dstr)) := by
    have h2 := hsub1.filter (fun e => e.date == dstr)
    rwa [hfe] at h2
  exact (hsub.eq_of_length hperm.length_eq.symm).symm

theorem guard_fold_spec (window : Int) (n : Nat) (key : Nat → String)
    (val : Nat → Rat) :
    (List.range n).foldl
        (fun (results : List (String × Rat)) (i : Nat) =>
          if window ≤ (i : Int) + 1 then dictInsert results (key i) (val i)
          else results) []
      = (((List.range n).filter
            (fun (i : Nat) => decide (window ≤ (i : Int) + 1))).map
          (fun i => (key i, val i))).foldl
          (fun d p => dictInsert d p.1 p.2) [] := by
  rw [foldl_guard_eq_filter (fun i => window ≤ (i : Int) + 1)
    (fun d i => dictInsert d (key i) (val i)) (List.range n) []]
  rw [List.foldl_map]

theorem moving_average_ok_spec (entries : List Entry) (metric : String)
    (window : Int) (h : 1 ≤ window) :
    moving_average entries metric window
      = Except.ok (movingAverageSpec entries metric window) := by
  have hnlt : ¬ window < 1 := not_lt.mpr h
  unfold moving_average movingAverageSpec sortedSelection metricSelection
  rw [if_neg hnlt]
  dsimp only
  by_cases hnil :
      (entries.filter (fun e => e.metric == normalizeMetric metric)).mergeSort
        dateLe = []
  · rw [hnil]
    simp
  · have hne :
        ((entries.filter (fun e => e.metric == normalizeMetric metric)).mergeSort
          dateLe).isEmpty = false := by
      cases hv : ((entries.filter
          (fun e => e.metric == normalizeMetric metric)).mergeSort
            dateLe).isEmpty with
      | false => rfl
      | true => exact absurd (List.isEmpty_iff.mp hv) hnil
    rw [hne]
    simp only [Bool.false_eq_true, if_false, List.length_map]
    rw [guard_fold_spec]
    simp [windowMean]

/-- C2: `moving_average` with a positive window computes exactly the spec
algorithm: select the entries of the normalized metric, sort them stably by
date string, and key the mean of each window ending at an eligible index by
the date at that index; the result is empty when no entry matches or fewer
than `window` entries match. -/
theorem moving_average_spec (entries : List Entry) (metric : String)
    (window : Int) (h : 1 ≤ window) :
    moving_average entries metric window
        = Except.ok (movingAverageSpec entries metric window)
    ∧ (metricSelection entries metric = []
        ∨ (metricSelection entries metric).length < window.toNat
        → moving_average entries metric window = Except.ok []) := by
  refine ⟨moving_average_ok_spec entries metric window h, fun hsmall => ?_⟩
  rw [moving_average_ok_spec entries metric window h]
  unfold movingAverageSpec sortedSelection
  dsimp only
  have hfilt : (List.range
        ((metricSelection entries metric).mergeSort dateLe).length).filter
      (fun (i : Nat) => decide (window ≤ (i : Int) + 1)) = [] := by
    rcases hsmall with hnil | hlen
    · rw [hnil, List.mergeSort_nil]
      rfl
    · apply List.filter_eq_nil_iff.mpr
      intro i hi
      have hi' := List.mem_range.mp hi
      rw [List.length_mergeSort] at hi'
      simp only [decide_eq_true_eq]
      omega
  rw [hfilt]
  rfl

/-- Witness for `moving_average_spec`: a single entry with window 1 produces
the one-key mapping carrying that entry's value. -/
theorem moving_average_spec_witness :
    moving_average [⟨"2025-09-01", "weight", 70⟩] "weight" 1
      = Except.ok [("2025-09-01", 70)] := by
  have h := (moving_average_spec [⟨"2025-09-01", "weight", 70⟩] "weight" 1
    (by decide)).1
  rw [h]
  unfold movingAverageSpec sortedSelection metricSelection
  have hnorm : normalizeMetric "weight" = "weight" := by decide
  rw [hnorm]
  dsimp only
  norm_num [List.filter_cons, List.mergeSort_singleton, List.range_succ,
    windowMean, dictInsert]

/-- C5: when several selected entries share a date, the sort is stable (the
entries of that date appear in the sorted selection in their original
relative order, each at its own position), and the mapping records for that
date key the mean computed at the last such position: the lookup equals the
window mean at the greatest eligible index carrying that date
(last-write-wins per date key). -/
theorem moving_average_duplicate_dates (entries : List Entry) (metric : String)
    (window : Int) (dstr : String) (r : List (String × Rat))
    (hw : 1 ≤ window)
    (hr : moving_average entries metric window = Except.ok r) :
    (sortedSelection entries metric).filter (fun e => e.date == dstr)
        = (metricSelection entries metric).filter (fun e => e.date == dstr)
    ∧ r.lookup dstr
        = (((List.range (sortedSelection entries metric).length).filter
              (fun (i : Nat) =>
                (((sortedSelection entries metric).map (fun e => e.date)).getD
                      i "" == dstr)
                  && decide (window ≤ (i : Int) + 1))).getLast?).map
            (fun i => windowMean
              ((sortedSelection entries metric).map (fun e => e.value))
              window.toNat i) := by
  constructor
  · exact mergeSort_filter_date (metricSelection entries metric) dstr
  · have hok := moving_average_ok_spec entries metric window hw
    rw [hr] at hok
    have hreq : r = movingAverageSpec entries metric window := by
      injection hok
    rw [hreq]
    unfold movingAverageSpec sortedSelection
    dsimp only
    rw [lookup_foldl_dictInsert]
    rw [List.filter_map, List.getLast?_map, List.filter_filter]
    dsimp only [Function.comp]
    cases hgl : (((List.range
          ((metricSelection entries metric).mergeSort dateLe).length).filter
        (fun (i : Nat) =>
          ((((metricSelection entries metric).mergeSort dateLe).map
                (fun e => e.date)).getD i "" == dstr)
            && decide (window ≤ (i : Int) + 1))).getLast?) with
    | none => rfl
    | some i => rfl

/-- Witness for `moving_average_duplicate_dates`: two entries share the date
"2025-09-02"; the mapping keeps the later entry's window mean (80, not 70)
under that key, and the sorted selection keeps both duplicate entries in
insertion order. -/
theorem moving_average_duplicate_dates_witness :
    moving_average
        [⟨"2025-09-01", "weight", 60⟩, ⟨"2025-09-02", "weight", 70⟩,
          ⟨"2025-09-02", "weight", 80⟩] "weight" 1
      = Except.ok [("2025-09-01", 60), ("2025-09-02", 80)]
    ∧ (sortedSelection
          [⟨"2025-09-01", "weight", 60⟩, ⟨"2025-09-02", "weight", 70⟩,
            ⟨"2025-09-02", "weight", 80⟩] "weight").filter
          (fun e => e.date == "2025-09-02")
        = (metricSelection
            [⟨"2025-09-01", "weight", 60⟩, ⟨"2025-09-02", "weight", 70⟩,
              ⟨"2025-09-02", "weight", 80⟩] "weight").filter
          (fun e => e.date == "2025-09-02")
    ∧ ([("2025-09-01", (60 : Rat)), ("2025-09-02", 80)]).lookup "2025-09-02"
        = some 80 := by
  have hsorted : List.Pairwise (fun a b => dateLe a b)
      [(⟨"2025-09-01", "weight", 60⟩ : Entry), ⟨"2025-09-02", "weight", 70⟩,
        ⟨"2025-09-02", "weight", 80⟩] := by decide
  have hmain : moving_average
      [⟨"2025-09-01", "weight", 60⟩, ⟨"2025-09-02", "weight", 70⟩,
        ⟨"2025-09-02", "weight", 80⟩] "weight" 1
      = Except.ok [("2025-09-01", 60), ("2025-09-02", 80)] := by
    rw [moving_average_ok_spec _ _ _ (by decide)]
    unfold movingAverageSpec sortedSelection metricSelection
    rw [show normalizeMetric "weight" = "weight" from by decide]
    dsimp only
    rw [show (List.filter (fun e => e.metric == "weight")
        [(⟨"2025-09-01", "weight", 60⟩ : Entry), ⟨"2025-09-02", "weight", 70⟩,
          ⟨"2025-09-02", "weight", 80⟩])
      = [(⟨"2025-09-01", "weight", 60⟩ : Entry), ⟨"2025-09-02", "weight", 70⟩,
          ⟨"2025-09-02", "weight", 80⟩] from by simp]
    rw [List.mergeSort_of_sorted hsorted]
    norm_num [List.range_succ, windowMean, dictInsert, List.filter_cons,
      show ¬ ("2025-09-01" : String) = "2025-09-02" from by decide,
      show (("2025-09-01" : String) == "2025-09-02") = false from by decide,
      show (("2025-09-02" : String) == "2025-09-01") = false from by decide]
  have hdup := moving_average_duplicate_dates
    [⟨"2025-09-01", "weight", 60⟩, ⟨"2025-09-02", "weight", 70⟩,
      ⟨"2025-09-02", "weight", 80⟩] "weight" 1 "2025-09-02"
    [("2025-09-01", 60), ("2025-09-02", 80)] (by decide) hmain
  exact ⟨hmain, hdup.1, rfl⟩

theorem parseUnquoted_round (f : List Char)
    (hf : ∀ c ∈ f, ¬(c = ',' ∨ c = '\r' ∨ c = '\n')) (rest : List Char)
    (hrest : rest = []
      ∨ ∃ c t, rest = c :: t ∧ (c = ',' ∨ c = '\r' ∨ c = '\n')) :
    parseUnquoted (f ++ rest) = (f, rest) := by
  induction f with
  | nil =>
    rcases hrest with rfl | ⟨c, t, rfl, hc⟩
    · rfl
    · have hstop : (c == ',' || c == '\r' || c == '\n') = true := by
        rcases hc with rfl | rfl | rfl <;> rfl
      simp [parseUnquoted, hstop]
  | cons a f' ih =>
    have ha := hf a (List.mem_cons_self _ _)
    have hstop : (a == ',' || a == '\r' || a == '\n') = false := by
      rcases h1 : (a == ',') with _ | _ <;>
        rcases h2 : (a == '\r') with _ | _ <;>
          rcases h3 : (a == '\n') with _ | _ <;>
            first
              | rfl
              | (exact absurd (Or.inl (eq_of_beq h1)) ha)
              | (exact absurd (Or.inr (Or.inl (eq_of_beq h2))) ha)
              | (exact absurd (Or.inr (Or.inr (eq_of_beq h3))) ha)
    have ih' := ih (fun c hc => hf c (List.mem_cons_of_mem _ hc))
    simp [parseUnquoted, hstop, ih']

theorem parseQuoted_round (f : List Char) :
    ∀ (rest : List Char), rest.head? ≠ some '"' →
      parseQuoted (escapeQuotes f ++ '"' :: rest) = (f, rest) := by
  induction f with
  | nil =>
    intro rest hrest
    cases rest with
    | nil => rfl
    | cons c t =>
      have hc : ¬ c = '"' := fun h => hrest (by rw [h]; rfl)
      simp [escapeQuotes, parseQuoted, hc]
  | cons a f' ih =>
    intro rest hrest
    by_cases ha : a = '"'
    · subst ha
      have hesc : escapeQuotes ('"' :: f') = '"' :: '"' :: escapeQuotes f' := by
        simp [escapeQuotes]
      rw [hesc]
      simp only [List.cons_append]
      rw [show parseQuoted ('"' :: '"' :: (escapeQuotes f' ++ '"' :: rest))
          = ('"' :: (parseQuoted (escapeQuotes f' ++ '"' :: rest)).1,
              (parseQuoted (escapeQuotes f' ++ '"' :: rest)).2) from by
        simp [parseQuoted]]
      rw [ih rest hrest]
    · have hesc : escapeQuotes (a :: f') = a :: escapeQuotes f' := by
        simp [escapeQuotes, ha]
      rw [hesc]
      simp only [List.cons_append]
      rw [show parseQuoted (a :: (escapeQuotes f' ++ '"' :: rest))
          = (a :: (parseQuoted (escapeQuotes f' ++ '"' :: rest)).1,
              (parseQuoted (escapeQuotes f' ++ '"' :: rest)).2) from by
        simp [parseQuoted, ha]]
      rw [ih rest hrest]

theorem parseField_round (f : List Char) (rest : List Char)
    (hrest : rest = [] ∨ ∃ c t, rest = c :: t ∧ (c = ',' ∨ c = '\r')) :
    parseField (fieldChars f ++ rest) = (f, rest) := by
  have hrest' : rest = []
      ∨ ∃ c t, rest = c :: t ∧ (c = ',' ∨ c = '\r' ∨ c = '\n') := by
    rcases hrest with h | ⟨c, t, h, hc⟩
    · exact Or.inl h
    · exact Or.inr ⟨c, t, h, by tauto⟩
  have hrestq : rest.head? ≠ some '"' := by
    rcases hrest with rfl | ⟨c, t, rfl, hc⟩
    · simp
    · rw [List.head?_cons]
      intro h
      have hc' := Option.some.inj h
      rcases hc with rfl | rfl <;> cases hc'
  unfold fieldChars
  by_cases hq : f.any csvSpecial
  · rw [if_pos hq]
    have hassoc : (('"' :: (escapeQuotes f ++ ['"'])) ++ rest)
        = '"' :: (escapeQuotes f ++ '"' :: rest) := by simp
    rw [hassoc]
    have hpf : parseField ('"' :: (escapeQuotes f ++ '"' :: rest))
        = parseQuoted (escapeQuotes f ++ '"' :: rest) := by
      simp [parseField]
    rw [hpf]
    exact parseQuoted_round f rest hrestq
  · rw [if_neg hq]
    have hf : ∀ c ∈ f, ¬(c = ',' ∨ c = '\r' ∨ c = '\n') := by
      intro c hc hor
      exact hq (List.any_eq_true.mpr
        ⟨c, hc, by rcases hor with rfl | rfl | rfl <;> rfl⟩)
    have hfq : ∀ c ∈ f, ¬ c = '"' := fun c hc h =>
      hq (List.any_eq_true.mpr ⟨c, hc, by rw [h]; rfl⟩)
    cases f with
    | nil =>
      rcases hrest with rfl | ⟨c, t, rfl, hc⟩
      · rfl
      · have hcq : ¬ c = '"' := by rcases hc with rfl | rfl <;> decide
        have hstop : (c == ',' || c == '\r' || c == '\n') = true := by
          rcases hc with rfl | rfl <;> rfl
        simp [parseField, hcq, parseUnquoted, hstop]
    | cons a f'' =>
      have haq : ¬ a = '"' := hfq a (List.mem_cons_self _ _)
      rw [List.cons_append]
      have hpf : parseField (a :: (f'' ++ rest))
          = parseUnquoted (a :: (f'' ++ rest)) := by
        simp [parseField, haq]
      rw [hpf]
      rw [show a :: (f'' ++ rest) = (a :: f'') ++ rest from rfl]
      exact parseUnquoted_round (a :: f'') hf rest hrest'

theorem parseRecordF_round :
    ∀ (fs : List (List Char)) (fuel : Nat) (rest : List Char),
      fs ≠ [] → fs.length ≤ fuel →
      parseRecordF fuel (rowChars fs ++ rest) = (fs, rest) := by
  intro fs
  induction fs with
  | nil => intro fuel rest hne _; exact absurd rfl hne
  | cons f fs' ih =>
    intro fuel rest _ hlen
    cases fuel with
    | zero => simp at hlen
    | succ fuel' =>
      cases fs' with
      | nil =>
        have hrow : rowChars [f] ++ rest
            = fieldChars f ++ ('\r' :: '\n' :: rest) := by
          simp [rowChars]
        rw [hrow]
        have hpf := parseField_round f ('\r' :: '\n' :: rest)
          (Or.inr ⟨'\r', '\n' :: rest, rfl, Or.inr rfl⟩)
        simp [parseRecordF, hpf]
      | cons g t =>
        have hrow : rowChars (f :: g :: t) ++ rest
            = fieldChars f ++ (',' :: (rowChars (g :: t) ++ rest)) := by
          simp [rowChars]
        rw [hrow]
        have hpf := parseField_round f (',' :: (rowChars (g :: t) ++ rest))
          (Or.inr ⟨',', rowChars (g :: t) ++ rest, rfl, Or.inl rfl⟩)
        have hih := ih fuel' rest (List.cons_ne_nil _ _)
          (by simpa using Nat.le_of_succ_le_succ hlen)
        simp [parseRecordF, hpf, hih]

theorem length_rowChars (fs : List (List Char)) :
    fs.length < (rowChars fs).length := by
  induction fs with
  | nil => simp [rowChars]
  | cons f fs' ih =>
    cases fs' with
    | nil => simp [rowChars]
    | cons g t =>
      have : rowChars (f :: g :: t) = fieldChars f ++ ',' :: rowChars (g :: t) :=
        by simp [rowChars]
      rw [this]
      simp only [List.length_cons, List.length_append] at ih ⊢
      omega

theorem length_fileChars (rows : List (List (List Char))) :
    rows.length ≤ (fileChars rows).length := by
  induction rows with
  | nil => simp [fileChars]
  | cons r rt ih =>
    have h1 := length_rowChars r
    have : fileChars (r :: rt) = rowChars r ++ fileChars rt := rfl
    rw [this]
    simp only [List.length_cons, List.length_append]
    omega

theorem parseRecordsF_round :
    ∀ (rows : List (List (List Char))) (fuel : Nat),
      (∀ r ∈ rows, r ≠ []) → rows.length ≤ fuel →
      parseRecordsF fuel (fileChars rows) = rows := by
  intro rows
  induction rows with
  | nil =>
    intro fuel _ _
    cases fuel with
    | zero => rfl
    | succ fuel' => rfl
  | cons r rt ih =>
    intro fuel hne hlen
    cases fuel with
    | zero => simp at hlen
    | succ fuel' =>
      have hfile : fileChars (r :: rt) = rowChars r ++ fileChars rt := rfl
      have hrow_ne : rowChars r ≠ [] := by
        intro h
        have := length_rowChars r
        rw [h] at this
        simp at this
      have hcs_ne : rowChars r ++ fileChars rt ≠ [] := by
        intro h
        exact hrow_ne (List.append_eq_nil.mp h).1
      have hempty : (rowChars r ++ fileChars rt).isEmpty = false := by
        cases hv : (rowChars r ++ fileChars rt).isEmpty with
        | false => rfl
        | true => exact absurd (List.isEmpty_iff.mp hv) hcs_ne
      have hb : r.length ≤ (rowChars r ++ fileChars rt).length + 1 := by
        have := length_rowChars r
        simp only [List.length_append]
        omega
      have hpr := parseRecordF_round r
        ((rowChars r ++ fileChars rt).length + 1) (fileChars rt)
        (hne r (List.mem_cons_self _ _)) hb
      rw [hfile]
      simp only [parseRecordsF, hempty, Bool.false_eq_true, if_false]
      rw [hpr]
      simp only []
      rw [ih fuel' (fun x hx => hne x (List.mem_cons_of_mem _ hx))
        (by simpa using Nat.le_of_succ_le_succ hlen)]

/-- C8: re-reading the exported csv text yields the header row followed by
exactly one row per entry in collection order, reproducing each entry's
(date, metric, value) triple with the value in its text formatting; this
holds for arbitrary date and metric strings thanks to the quoting rules. -/
theorem export_csv_roundtrip (entries : List Entry) :
    readCsv (export_csv entries)
      = ["date", "metric", "value"]
          :: entries.map (fun e => [e.date, e.metric, formatValue e.value]) := by
  unfold readCsv export_csv
  have hmk : ∀ s : String, String.mk s.toList = s := fun s => rfl
  have htl : ∀ (l : List Char), (String.mk l).toList = l := fun l => rfl
  rw [htl]
  have hne : ∀ r ∈ (["date".toList, "metric".toList, "value".toList]
      :: entries.map entryRow), r ≠ [] := by
    intro r hr
    rcases List.mem_cons.mp hr with rfl | hr2
    · simp
    · obtain ⟨e, he, hre⟩ := List.mem_map.mp hr2
      rw [← hre]
      simp [entryRow]
  have hlen : (["date".toList, "metric".toList, "value".toList]
        :: entries.map entryRow).length
      ≤ (fileChars (["date".toList, "metric".toList, "value".toList]
        :: entries.map entryRow)).length + 1 := by
    have := length_fileChars (["date".toList, "metric".toList, "value".toList]
      :: entries.map entryRow)
    omega
  rw [parseRecordsF_round _ _ hne hlen]
  simp [entryRow, List.map_map, hmk, Function.comp]
